import Mathlib

/-!
Verification of the benchmarking driver `perf.py` (function `run`,
lines 96-130).  The driver is embedded shallowly: external effects
(cloud-client construction, problem-file loading, wall-clock measurement,
pipeline construction and execution) are fields of an explicit environment,
Python exceptions are explicit values split by class, and the two
OrderedDict levels of the result mapping are association lists with
position-preserving assignment.  A trace of external events is produced
alongside the result so that resource-sharing and seeding invariants can be
stated.
-/

namespace Perf

/-- A Python exception value, split by class: `ordinary` stands for an
instance of the `Exception` class (these are caught by the `except
Exception` clause at line 118), `base` for a `BaseException`-only instance
such as `KeyboardInterrupt` or `SystemExit`, which that clause does not
catch.  The carried string is the value of `repr(exc)`. -/
inductive Exc where
  | ordinary (msg : String)
  | base (msg : String)
deriving DecidableEq

/-- Whether the exception is an instance of the `Exception` class, i.e.
whether `except Exception` catches it. -/
def Exc.isException : Exc → Bool
  | .ordinary _ => true
  | .base _ => false

/-- The textual description `repr(exc)` that the driver records for a
failed case (line 120). -/
def Exc.reprStr : Exc → String
  | .ordinary m => m
  | .base m => m

/-- Result of a fallible external operation: normal return or a raised
exception. -/
abbrev Fallible (α : Type) : Type := Except Exc α

/-- Whether a fallible outcome is a raised exception. -/
def excIsError {α : Type} : Fallible α → Bool
  | .ok _ => false
  | .error _ => true

/-- The exception raised by a fallible outcome, when any. -/
def excErr? {α : Type} : Fallible α → Option Exc
  | .ok _ => none
  | .error e => some e

/-- The normal return value of a fallible outcome, when any. -/
def excToOption {α : Type} : Fallible α → Option α
  | .ok a => some a
  | .error _ => none

/-- Opaque handle to the remote optimization backend: the cloud client
built by `DWaveSampler()` at line 100.  The driver never inspects it. -/
structure Qpu where
  id : Nat
deriving DecidableEq

/-- A parsed binary quadratic model, the value of
`dimod.BinaryQuadraticModel.from_coo(fp)` at line 106, kept as its sparse
coordinate list.  The driver treats it as opaque data. -/
structure Bqm where
  coo : List (Nat × Nat × Int)
deriving DecidableEq

/-- Variables of a BQM: the indices occurring in its coordinate list. -/
def Bqm.variables (b : Bqm) : List Nat :=
  (b.coo.map (fun t => [t.1, t.2.1])).flatten.dedup

/-- A sample: an assignment of values to variables. -/
structure Sample where
  assign : List (Nat × Int)
deriving DecidableEq

/-- Value of a variable under a sample (0 when unassigned). -/
def Sample.valueOf (s : Sample) (v : Nat) : Int :=
  match s.assign.find? (fun p => p.1 == v) with
  | some p => p.2
  | none => 0

/-- Modelled from the spec: `hybrid.utils.min_sample` is code of this
repository that is not under `src/`.  Per the spec it is "a deterministic
minimal-energy-style default assignment for the problem's variables":
every variable of the problem is mapped to the minimal domain value,
here 0. -/
def min_sample (bqm : Bqm) : Sample :=
  ⟨bqm.variables.map (fun v => (v, 0))⟩

/-- Energy of a sample under a BQM: the sum of its coordinate terms
evaluated at the sample. -/
def Bqm.energyOf (b : Bqm) (s : Sample) : Int :=
  (b.coo.map (fun t => t.2.2 * s.valueOf t.1 * s.valueOf t.2.1)).sum

/-- One row of a sample set, as reached by `samples.first` at line 127:
the lowest-energy sample together with its energy. -/
structure SampleRow where
  sample : Sample
  energy : Int
deriving DecidableEq

/-- A sample set; the driver only ever reads its `first` (lowest-energy)
row. -/
structure SampleSet where
  first : SampleRow
deriving DecidableEq

/-- Modelled from the spec: `hybrid.core.State` is code of this repository
that is not under `src/`.  A search state carrying a sample set and the
problem it refers to. -/
structure State where
  samples : SampleSet
  problem : Bqm
deriving DecidableEq

/-- Modelled from the spec: `hybrid.core.State.from_sample` is code of this
repository that is not under `src/`.  It builds the initial search state
holding exactly the given sample, with its energy under the problem. -/
def State.from_sample (s : Sample) (bqm : Bqm) : State :=
  { samples := ⟨⟨s, bqm.energyOf s⟩⟩, problem := bqm }

/-- A runnable solver pipeline: `solver.run(init_state).result()`
(line 116) as one blocking, possibly raising call from a state to a final
state. -/
abbrev Solver : Type := State → Fallible State

/-- A pipeline factory, one entry value of the `solver_factories` table:
builds a solver from the problem and the shared QPU handle (line 112),
possibly raising. -/
abbrev Factory : Type := Bqm → Qpu → Fallible Solver

/-- The external world touched by the driver: construction of the cloud
client (`DWaveSampler()`, line 100), opening plus parsing of a problem
file (lines 105-106), and the wall-clock duration `timer.dt` measured
around each case (lines 115-116, 128).  The `dt` field is modelled from
the spec: `hybrid.profiling.tictoc` is code of this repository that is not
under `src/`; per the spec it measures a non-negative elapsed wall-clock
duration, represented here as a natural number of clock ticks. -/
structure Env where
  mkQpu : Fallible Qpu
  loadBqm : String → Fallible Bqm
  dt : String → String → Nat

/-- One entry of `results[problem]`: either the recorded `repr(exc)`
string of a failed case (line 120) or the record
`dict(energy=..., wallclock=...)` of a successful one (lines 126-128). -/
inductive CaseResult where
  | failure (msg : String)
  | success (energy : Int) (wallclock : Nat)
deriving DecidableEq

/-- Observable external events of a run: construction of the cloud-client
handle, opening and parsing a problem file, invoking a pipeline factory
(recording the handle passed to it), and executing a pipeline against an
initial state (recording the problem and the state). -/
inductive Event where
  | mkQpuCall (result : Option Qpu)
  | loadCall (path : String)
  | factoryCall (problem : String) (name : String) (qpu : Qpu)
  | solverRun (problem : String) (name : String) (bqm : Bqm) (st : State)
deriving DecidableEq

/-- Assignment `d[k] = v` on an ordered dictionary represented as an
association list: an existing key keeps its position and gets the new
value, a new key is appended at the end. -/
def odSet {β : Type} : List (String × β) → String → β → List (String × β)
  | [], k, v => [(k, v)]
  | p :: rest, k, v => if p.1 = k then (k, v) :: rest else p :: odSet rest k v

/-- Lookup `d[k]` on an ordered dictionary represented as an association
list. -/
def odLookup {β : Type} : List (String × β) → String → Option β
  | [], _ => none
  | p :: rest, k => if p.1 = k then some p.2 else odLookup rest k

/-- Keys of an ordered dictionary, in insertion order. -/
def odKeys {β : Type} (d : List (String × β)) : List String :=
  d.map Prod.fst

/-- The two-level result mapping: problem path to pipeline name to case
entry. -/
abbrev Results : Type := List (String × List (String × CaseResult))

/-- Two-level lookup `results[problem][name]`. -/
def odLookup2 (res : Results) (problem name : String) : Option CaseResult :=
  match odLookup res problem with
  | some inner => odLookup inner name
  | none => none

/-- The body of the `try` block at lines 112-116: build the solver from
the factory, construct the initial state from the minimal sample of the
problem, and run the solver against it. -/
def tryBody (qpu : Qpu) (bqm : Bqm) (f : Factory) : Fallible State :=
  match f bqm qpu with
  | .error e => .error e
  | .ok solver => solver (State.from_sample (min_sample bqm) bqm)

/-- The `except Exception` and `else` clauses at lines 118-128: an
`Exception`-class failure is recorded as its `repr` string, a success as
its first-row energy together with the measured wall-clock; any other
exception propagates. -/
def handle (env : Env) (problem name : String) :
    Fallible State → Fallible CaseResult
  | .error e =>
      if e.isException then .ok (.failure e.reprStr) else .error e
  | .ok solution =>
      .ok (.success solution.samples.first.energy (env.dt problem name))

/-- One (problem, pipeline) case, lines 109-128 of `perf.py`: the traced
factory invocation, the traced solver execution against the initial state
built from `min_sample`, and the per-case exception handling.  Returns
the events of the case together with either the entry recorded under
`results[problem][name]` or, for an uncaught exception, the exception
itself. -/
def runCase (env : Env) (qpu : Qpu) (bqm : Bqm) (problem name : String)
    (f : Factory) : List Event × Fallible CaseResult :=
  match f bqm qpu with
  | .error e =>
      ([Event.factoryCall problem name qpu],
       if e.isException then .ok (.failure e.reprStr) else .error e)
  | .ok solver =>
      ([Event.factoryCall problem name qpu,
        Event.solverRun problem name bqm (State.from_sample (min_sample bqm) bqm)],
       handle env problem name (solver (State.from_sample (min_sample bqm) bqm)))

/-- The recorded value of a case whose handler returned normally; for an
uncaught exception (excluded wherever this is used) the `repr` string is
returned as a placeholder. -/
def caseValue (env : Env) (qpu : Qpu) (bqm : Bqm) (problem : String)
    (nf : String × Factory) : CaseResult :=
  match (runCase env qpu bqm problem nf.1 nf.2).2 with
  | .ok v => v
  | .error e => .failure e.reprStr

/-- The sub-mapping recorded for one problem when every case handler
returns normally: each configured pipeline name mapped to its recorded
entry.  For a problem whose file fails to load the run aborts, so the
empty mapping stands as a placeholder. -/
def problemValue (env : Env) (qpu : Qpu) (fs : List (String × Factory))
    (p : String) : List (String × CaseResult) :=
  match env.loadBqm p with
  | .error _ => []
  | .ok b => fs.map (fun nf => (nf.1, caseValue env qpu b p nf))

/-- The full result mapping of a run on which no exception escapes a
per-case handler. -/
def expectedResults (env : Env) (qpu : Qpu) (ps : List String)
    (fs : List (String × Factory)) : Results :=
  ps.map (fun p => (p, problemValue env qpu fs p))

/-- The inner loop over `solver_factories` (lines 108-128), starting from
the accumulated sub-mapping `acc` for the current problem.  Stops with the
exception if a case raises one not caught by its handler. -/
def runFactories (env : Env) (qpu : Qpu) (bqm : Bqm) (problem : String) :
    List (String × Factory) → List (String × CaseResult) →
      List Event × Fallible (List (String × CaseResult))
  | [], acc => ([], .ok acc)
  | nf :: rest, acc =>
    match runCase env qpu bqm problem nf.1 nf.2 with
    | (t, .error e) => (t, .error e)
    | (t, .ok v) =>
      match runFactories env qpu bqm problem rest (odSet acc nf.1 v) with
      | (t2, r2) => (t ++ t2, r2)

/-- The outer loop over problem files (lines 102-128): reset the sub-
mapping for the problem (line 103), open and parse the problem file
outside any handler (lines 105-106), then run every configured pipeline
against it. -/
def runProblems (env : Env) (qpu : Qpu) (fs : List (String × Factory)) :
    List String → Results → List Event × Fallible Results
  | [], results => ([], .ok results)
  | problem :: rest, results =>
    match env.loadBqm problem with
    | .error e => ([Event.loadCall problem], .error e)
    | .ok bqm =>
      match runFactories env qpu bqm problem fs [] with
      | (t, .error e) => (Event.loadCall problem :: t, .error e)
      | (t, .ok inner) =>
        match runProblems env qpu fs rest
            (odSet (odSet results problem []) problem inner) with
        | (t2, r2) => (Event.loadCall problem :: (t ++ t2), r2)

/-- The driver entry point `run(problems, solver_factories)` of `perf.py`
(lines 96-130): obtain the cloud client once (line 100), then process
every problem and every pipeline in order.  Returns the trace of external
events together with either the final result mapping or the exception
that terminated the process. -/
def run (env : Env) (problems : List String)
    (solver_factories : List (String × Factory)) :
    List Event × Fallible Results :=
  match env.mkQpu with
  | .error e => ([Event.mkQpuCall none], .error e)
  | .ok qpu =>
    match runProblems env qpu solver_factories problems [] with
    | (t, r) => (Event.mkQpuCall (some qpu) :: t, r)

/-- A case entry with the wall-clock field erased: the failure string or
the bare energy.  Used to state that reruns reproduce energies while
wall-clock values may differ. -/
def stripCase : CaseResult → Sum String Int
  | .failure m => Sum.inl m
  | .success en _ => Sum.inr en

/-- Map a function over the values of an ordered dictionary. -/
def mapVal {β γ : Type} (g : β → γ) (d : List (String × β)) :
    List (String × γ) :=
  d.map (fun p => (p.1, g p.2))

/-- A per-problem sub-mapping with wall-clock fields erased. -/
def stripInner (d : List (String × CaseResult)) :
    List (String × Sum String Int) :=
  mapVal stripCase d

/-- A result mapping with wall-clock fields erased. -/
def stripResults (res : Results) :
    List (String × List (String × Sum String Int)) :=
  mapVal stripInner res

/-- A fallible outcome with wall-clock fields of a successful mapping
erased. -/
def stripOutcome : Fallible Results →
    Fallible (List (String × List (String × Sum String Int)))
  | .ok res => .ok (stripResults res)
  | .error e => .error e

/-- A fallible per-problem outcome with wall-clock fields erased. -/
def stripInnerOutcome : Fallible (List (String × CaseResult)) →
    Fallible (List (String × Sum String Int))
  | .ok d => .ok (stripInner d)
  | .error e => .error e

/-- A fallible case outcome with the wall-clock field erased. -/
def stripCaseOutcome : Fallible CaseResult → Fallible (Sum String Int)
  | .ok v => .ok (stripCase v)
  | .error e => .error e

/- Concrete instances used by the witnesses below. -/

/-- A solver that returns its input state unchanged. -/
def idSolver : Solver := fun st => .ok st

/-- A factory that always succeeds, yielding `idSolver`. -/
def okFactory : Factory := fun _ _ => .ok idSolver

/-- A factory that raises an ordinary `Exception` at construction time. -/
def badFactory : Factory :=
  fun _ _ => .error (.ordinary "ValueError from pipeline construction")

/-- A factory that raises a `KeyboardInterrupt`-style exception, which is
not an instance of the `Exception` class. -/
def interruptFactory : Factory :=
  fun _ _ => .error (.base "KeyboardInterrupt at pipeline build")

/-- A tiny concrete BQM used by the witnesses. -/
def bqmW : Bqm := ⟨[(0, 1, 2)]⟩

/-- A benign environment: handle construction and problem parsing succeed
and every case takes one clock tick. -/
def envW : Env :=
  { mkQpu := .ok ⟨0⟩
    loadBqm := fun _ => .ok bqmW
    dt := fun _ _ => 1 }

/-- The same external world as `envW` except for the measured wall-clock
durations, as on a second run of the driver. -/
def envW2 : Env :=
  { mkQpu := .ok ⟨0⟩
    loadBqm := fun _ => .ok bqmW
    dt := fun _ _ => 7 }

/-- An environment whose problem file is malformed: `from_coo` raises an
ordinary parse error at line 106, outside the per-case handler. -/
def envMal : Env :=
  { mkQpu := .ok ⟨0⟩
    loadBqm := fun _ => .error (.ordinary "ValueError from from_coo on malformed file")
    dt := fun _ _ => 1 }

/-- Pipeline table with one succeeding and one failing pipeline. -/
def fsW : List (String × Factory) := [("ok", okFactory), ("bad", badFactory)]

/-- Pipeline table whose single pipeline raises a base exception. -/
def fsB : List (String × Factory) := [("intr", interruptFactory)]

/-- Pipeline table with a single succeeding pipeline. -/
def fsOk : List (String × Factory) := [("ok", okFactory)]

/- Ordered-dictionary lemmas. -/

theorem odSet_not_mem {β : Type} {d : List (String × β)} {k : String} (v : β)
    (h : k ∉ odKeys d) : odSet d k v = d ++ [(k, v)] := by
  induction d with
  | nil => rfl
  | cons p rest ih =>
    simp only [odKeys, List.map_cons, List.mem_cons, not_or] at h
    have hne : p.1 ≠ k := fun hpk => h.1 hpk.symm
    have h2 : k ∉ odKeys rest := by simpa [odKeys] using h.2
    simp [odSet, hne, ih h2]

theorem odKeys_odSet_mem {β : Type} {d : List (String × β)} {k : String} (v : β)
    (h : k ∈ odKeys d) : odKeys (odSet d k v) = odKeys d := by
  induction d with
  | nil => simp [odKeys] at h
  | cons p rest ih =>
    by_cases hpk : p.1 = k
    · simp [odSet, hpk, odKeys]
    · have hk : k ∈ odKeys rest := by
        simp only [odKeys, List.map_cons, List.mem_cons] at h
        rcases h with h | h
        · exact absurd h.symm hpk
        · simpa [odKeys] using h
      simp only [odSet, if_neg hpk, odKeys, List.map_cons]
      rw [show List.map Prod.fst (odSet rest k v) = odKeys (odSet rest k v) from rfl,
        ih hk]
      rfl

theorem mem_odKeys_odSet {β : Type} (d : List (String × β)) (k x : String) (v : β) :
    x ∈ odKeys (odSet d k v) ↔ x ∈ odKeys d ∨ x = k := by
  by_cases hk : k ∈ odKeys d
  · rw [odKeys_odSet_mem v hk]
    constructor
    · exact Or.inl
    · rintro (h | rfl)
      · exact h
      · exact hk
  · rw [odSet_not_mem v hk]
    have happ : odKeys (d ++ [(k, v)]) = odKeys d ++ [k] := by simp [odKeys]
    rw [happ, List.mem_append, List.mem_singleton]

theorem odKeys_odSet_nodup {β : Type} {d : List (String × β)} {k : String} (v : β)
    (h : (odKeys d).Nodup) : (odKeys (odSet d k v)).Nodup := by
  by_cases hk : k ∈ odKeys d
  · rw [odKeys_odSet_mem v hk]; exact h
  · rw [odSet_not_mem v hk]
    simp only [odKeys, List.map_append]
    refine List.Nodup.append h (by simp) ?_
    intro x hx hx2
    simp at hx2
    subst hx2
    exact hk (by simpa [odKeys] using hx)

theorem odSet_append_last {β : Type} {d : List (String × β)} {p : String} (x v : β)
    (h : p ∉ odKeys d) : odSet (d ++ [(p, x)]) p v = d ++ [(p, v)] := by
  induction d with
  | nil => simp [odSet]
  | cons q rest ih =>
    simp only [odKeys, List.map_cons, List.mem_cons, not_or] at h
    have hq : q.1 ≠ p := fun hh => h.1 hh.symm
    have h2 : p ∉ odKeys rest := by simpa [odKeys] using h.2
    simp [odSet, hq, ih h2]

theorem odLookup_odSet_self {β : Type} (d : List (String × β)) (k : String) (v : β) :
    odLookup (odSet d k v) k = some v := by
  induction d with
  | nil => simp [odSet, odLookup]
  | cons p rest ih =>
    by_cases hpk : p.1 = k
    · simp [odSet, hpk, odLookup]
    · simp [odSet, hpk, odLookup, ih]

theorem odLookup_odSet_ne {β : Type} (d : List (String × β)) {k x : String} (v : β)
    (h : x ≠ k) : odLookup (odSet d k v) x = odLookup d x := by
  have hkx : ¬ k = x := fun hh => h hh.symm
  induction d with
  | nil => simp [odSet, odLookup, hkx]
  | cons p rest ih =>
    by_cases hpk : p.1 = k
    · simp [odSet, hpk, odLookup, hkx, h]
    · by_cases hpx : p.1 = x
      · simp [odSet, hpk, odLookup, hpx, hkx, h]
      · simp [odSet, hpk, odLookup, hpx, hkx, h, ih]

theorem odLookup_graph {β : Type} {l : List String} {p : String}
    (g : String → β) (h : p ∈ l) :
    odLookup (l.map (fun q => (q, g q))) p = some (g p) := by
  induction l with
  | nil => cases h
  | cons a rest ih =>
    by_cases hap : a = p
    · subst hap; simp [odLookup]
    · rcases List.mem_cons.mp h with h1 | h1
      · exact absurd h1.symm hap
      · simp [odLookup, hap, ih h1]

theorem odLookup_map_of_nodup {α β : Type} {l : List (String × α)} {nf : String × α}
    (g : String × α → β) (hnd : (l.map Prod.fst).Nodup) (h : nf ∈ l) :
    odLookup (l.map (fun x => (x.1, g x))) nf.1 = some (g nf) := by
  induction l with
  | nil => cases h
  | cons a rest ih =>
    rcases List.mem_cons.mp h with h1 | h1
    · subst h1; simp [odLookup]
    · have hnd1 : (a.1 :: rest.map Prod.fst).Nodup := by
        rw [List.map_cons] at hnd
        exact hnd
      have hn : a.1 ∉ rest.map Prod.fst := (List.nodup_cons.mp hnd1).1
      have hnd2 : (rest.map Prod.fst).Nodup := (List.nodup_cons.mp hnd1).2
      have hne : a.1 ≠ nf.1 := by
        intro he
        have hmem : nf.1 ∈ rest.map Prod.fst := List.mem_map_of_mem Prod.fst h1
        rw [← he] at hmem
        exact hn hmem
      simp [odLookup, hne, ih hnd2 h1]

/- Per-case lemmas. -/

theorem runCase_snd (env : Env) (qpu : Qpu) (bqm : Bqm) (problem name : String)
    (f : Factory) :
    (runCase env qpu bqm problem name f).2 =
      handle env problem name (tryBody qpu bqm f) := by
  unfold runCase tryBody
  cases f bqm qpu with
  | error e => rfl
  | ok solver => rfl

theorem runCase_fst_mem (env : Env) (qpu : Qpu) (bqm : Bqm)
    (problem name : String) (f : Factory) {e : Event}
    (h : e ∈ (runCase env qpu bqm problem name f).1) :
    e = Event.factoryCall problem name qpu ∨
      e = Event.solverRun problem name bqm
            (State.from_sample (min_sample bqm) bqm) := by
  unfold runCase at h
  cases hfq : f bqm qpu with
  | error e2 =>
    rw [hfq] at h
    simp at h
    exact Or.inl h
  | ok solver =>
    rw [hfq] at h
    simp at h
    rcases h with h | h
    · exact Or.inl h
    · exact Or.inr h

theorem runCase_error_iff (env : Env) (qpu : Qpu) (bqm : Bqm)
    (problem name : String) (f : Factory) (e : Exc) :
    (runCase env qpu bqm problem name f).2 = .error e ↔
      tryBody qpu bqm f = .error e ∧ e.isException = false := by
  rw [runCase_snd]
  cases h : tryBody qpu bqm f with
  | ok st => simp [handle]
  | error e2 =>
    cases e2 with
    | ordinary m =>
      simp [handle, Exc.isException]
      rintro rfl
      simp [Exc.isException]
    | base m =>
      simp [handle, Exc.isException]
      rintro rfl
      simp [Exc.isException]

theorem runCase_caught (env : Env) (qpu : Qpu) (bqm : Bqm)
    (problem name : String) (f : Factory) {e : Exc}
    (h : tryBody qpu bqm f = .error e) (ho : e.isException = true) :
    (runCase env qpu bqm problem name f).2 = .ok (.failure e.reprStr) := by
  rw [runCase_snd, h]
  simp [handle, ho]

theorem runCase_success (env : Env) (qpu : Qpu) (bqm : Bqm)
    (problem name : String) (f : Factory) {st : State}
    (h : tryBody qpu bqm f = .ok st) :
    (runCase env qpu bqm problem name f).2 =
      .ok (.success st.samples.first.energy (env.dt problem name)) := by
  rw [runCase_snd, h]
  rfl

/- Clean-run fold lemmas: when no exception escapes a per-case handler,
the loops return exactly the accumulated mapping extended with one entry
per case. -/

theorem runFactories_clean (env : Env) (qpu : Qpu) (bqm : Bqm) (problem : String) :
    ∀ (fs : List (String × Factory)) (acc : List (String × CaseResult)),
      (fs.map Prod.fst).Nodup →
      (∀ nf ∈ fs, excIsError (runCase env qpu bqm problem nf.1 nf.2).2 = false) →
      (∀ nf ∈ fs, nf.1 ∉ odKeys acc) →
      (runFactories env qpu bqm problem fs acc).2 =
        .ok (acc ++ fs.map (fun nf => (nf.1, caseValue env qpu bqm problem nf))) := by
  intro fs
  induction fs with
  | nil => intro acc _ _ _; simp [runFactories]
  | cons nf rest ih =>
    intro acc hnd hok hdisj
    have hok0 := hok nf (List.mem_cons_self nf rest)
    obtain ⟨v, hv2⟩ : ∃ v, (runCase env qpu bqm problem nf.1 nf.2).2 = .ok v := by
      cases hc2 : (runCase env qpu bqm problem nf.1 nf.2).2 with
      | ok v => exact ⟨v, rfl⟩
      | error e => rw [hc2] at hok0; simp [excIsError] at hok0
    cases hc : runCase env qpu bqm problem nf.1 nf.2 with
    | mk t r =>
      have hr2 : r = .ok v := by rw [hc] at hv2; exact hv2
      subst hr2
      cases hrec : runFactories env qpu bqm problem rest (odSet acc nf.1 v) with
      | mk t2 r2 =>
        have hred : runFactories env qpu bqm problem (nf :: rest) acc = (t ++ t2, r2) := by
          simp only [runFactories, hc, hrec]
        rw [hred]
        have hnd1 : (nf.1 :: rest.map Prod.fst).Nodup := by
          rw [List.map_cons] at hnd; exact hnd
        have hnfr : nf.1 ∉ rest.map Prod.fst := (List.nodup_cons.mp hnd1).1
        have hnd2 : (rest.map Prod.fst).Nodup := (List.nodup_cons.mp hnd1).2
        have hok2 : ∀ x ∈ rest, excIsError (runCase env qpu bqm problem x.1 x.2).2 = false :=
          fun x hx => hok x (List.mem_cons_of_mem nf hx)
        have hdisj2 : ∀ x ∈ rest, x.1 ∉ odKeys (odSet acc nf.1 v) := by
          intro x hx hmem
          rcases (mem_odKeys_odSet acc nf.1 x.1 v).mp hmem with h2 | h2
          · exact hdisj x (List.mem_cons_of_mem nf hx) h2
          · exact hnfr (h2 ▸ List.mem_map_of_mem Prod.fst hx)
        have hihyp := ih (odSet acc nf.1 v) hnd2 hok2 hdisj2
        rw [hrec] at hihyp
        have hihyp2 : r2 = Except.ok (odSet acc nf.1 v ++
            rest.map (fun x => (x.1, caseValue env qpu bqm problem x))) := hihyp
        have hset : odSet acc nf.1 v = acc ++ [(nf.1, v)] :=
          odSet_not_mem v (hdisj nf (List.mem_cons_self nf rest))
        have hcv : caseValue env qpu bqm problem nf = v := by
          simp [caseValue, hc]
        show r2 = _
        rw [hihyp2, hset]
        simp [hcv, List.append_assoc]

theorem runProblems_clean (env : Env) (qpu : Qpu) (fs : List (String × Factory))
    (hndn : (fs.map Prod.fst).Nodup) :
    ∀ (ps : List String) (results : Results),
      ps.Nodup →
      (∀ p ∈ ps, excIsError (env.loadBqm p) = false) →
      (∀ p ∈ ps, ∀ b, env.loadBqm p = .ok b →
        ∀ nf ∈ fs, excIsError (runCase env qpu b p nf.1 nf.2).2 = false) →
      (∀ p ∈ ps, p ∉ odKeys results) →
      (runProblems env qpu fs ps results).2 =
        .ok (results ++ ps.map (fun p => (p, problemValue env qpu fs p))) := by
  intro ps
  induction ps with
  | nil => intro results _ _ _ _; simp [runProblems]
  | cons p rest ih =>
    intro results hnd hload hok hdisj
    obtain ⟨b, hb⟩ : ∃ b, env.loadBqm p = .ok b := by
      cases hl : env.loadBqm p with
      | ok b => exact ⟨b, rfl⟩
      | error e =>
        have hl0 := hload p (List.mem_cons_self p rest)
        rw [hl] at hl0; simp [excIsError] at hl0
    have hinner := runFactories_clean env qpu b p fs [] hndn
      (fun nf hnf => hok p (List.mem_cons_self p rest) b hb nf hnf)
      (by intro nf _ hmem; simp [odKeys] at hmem)
    cases hrf : runFactories env qpu b p fs [] with
    | mk t r =>
      have hr : r = Except.ok
          (fs.map (fun nf => (nf.1, caseValue env qpu b p nf))) := by
        rw [hrf] at hinner
        rw [List.nil_append] at hinner
        exact hinner
      subst hr
      have hp : p ∉ odKeys results := hdisj p (List.mem_cons_self p rest)
      have h1 : odSet results p ([] : List (String × CaseResult)) =
          results ++ [(p, [])] := odSet_not_mem _ hp
      have hacc : odSet (odSet results p ([] : List (String × CaseResult))) p
          (fs.map (fun nf => (nf.1, caseValue env qpu b p nf))) =
          results ++ [(p, fs.map (fun nf => (nf.1, caseValue env qpu b p nf)))] := by
        rw [h1]; exact odSet_append_last _ _ hp
      cases hrec : runProblems env qpu fs rest
          (results ++ [(p, fs.map (fun nf => (nf.1, caseValue env qpu b p nf)))]) with
      | mk t2 r2 =>
        have hred : runProblems env qpu fs (p :: rest) results =
            (Event.loadCall p :: (t ++ t2), r2) := by
          simp only [runProblems, hb, hrf, hacc, hrec]
        rw [hred]
        have hnd1 := List.nodup_cons.mp hnd
        have hdisj2 : ∀ q ∈ rest, q ∉ odKeys
            (results ++ [(p, fs.map (fun nf => (nf.1, caseValue env qpu b p nf)))]) := by
          intro q hq hmem
          have hk : odKeys (results ++
              [(p, fs.map (fun nf => (nf.1, caseValue env qpu b p nf)))]) =
              odKeys results ++ [p] := by simp [odKeys]
          rw [hk, List.mem_append, List.mem_singleton] at hmem
          rcases hmem with hm | hm
          · exact hdisj q (List.mem_cons_of_mem p hq) hm
          · exact hnd1.1 (hm ▸ hq)
        have hihyp := ih
          (results ++ [(p, fs.map (fun nf => (nf.1, caseValue env qpu b p nf)))])
          hnd1.2
          (fun q hq => hload q (List.mem_cons_of_mem p hq))
          (fun q hq => hok q (List.mem_cons_of_mem p hq))
          hdisj2
        rw [hrec] at hihyp
        have hihyp2 : r2 = Except.ok
            ((results ++ [(p, fs.map (fun nf => (nf.1, caseValue env qpu b p nf)))]) ++
              rest.map (fun q => (q, problemValue env qpu fs q))) := hihyp
        have hpv : problemValue env qpu fs p =
            fs.map (fun nf => (nf.1, caseValue env qpu b p nf)) := by
          simp [problemValue, hb]
        show r2 = _
        rw [hihyp2]
        simp [hpv, List.append_assoc]

theorem run_clean (env : Env) (qpu : Qpu) (ps : List String)
    (fs : List (String × Factory))
    (hq : env.mkQpu = .ok qpu)
    (hndp : ps.Nodup) (hndn : (fs.map Prod.fst).Nodup)
    (hload : ∀ p ∈ ps, excIsError (env.loadBqm p) = false)
    (hok : ∀ p ∈ ps, ∀ b, env.loadBqm p = .ok b →
      ∀ nf ∈ fs, excIsError (runCase env qpu b p nf.1 nf.2).2 = false) :
    (run env ps fs).2 = .ok (expectedResults env qpu ps fs) := by
  have hrp := runProblems_clean env qpu fs hndn ps [] hndp hload hok
    (by intro p _ hm; simp [odKeys] at hm)
  cases hrec : runProblems env qpu fs ps [] with
  | mk t r =>
    have hred : run env ps fs = (Event.mkQpuCall (some qpu) :: t, r) := by
      simp only [run, hq, hrec]
    rw [hred]
    rw [hrec] at hrp
    have hr : r = Except.ok
        (List.map (fun p => (p, problemValue env qpu fs p)) ps) := by
      rw [List.nil_append] at hrp
      exact hrp
    exact hr

/- Fatality characterization: exactly which failures escape the loops. -/

theorem runFactories_error_iff (env : Env) (qpu : Qpu) (bqm : Bqm) (problem : String) :
    ∀ (fs : List (String × Factory)) (acc : List (String × CaseResult)),
      (excIsError (runFactories env qpu bqm problem fs acc).2 = true ↔
        ∃ nf ∈ fs, excIsError (runCase env qpu bqm problem nf.1 nf.2).2 = true) := by
  intro fs
  induction fs with
  | nil => intro acc; simp [runFactories, excIsError]
  | cons nf rest ih =>
    intro acc
    cases hc : runCase env qpu bqm problem nf.1 nf.2 with
    | mk t r =>
      cases r with
      | error e =>
        have hred : runFactories env qpu bqm problem (nf :: rest) acc = (t, .error e) := by
          simp only [runFactories, hc]
        rw [hred]
        simp only [excIsError, true_iff]
        exact ⟨nf, List.mem_cons_self nf rest, by rw [hc]⟩
      | ok v =>
        cases hrec : runFactories env qpu bqm problem rest (odSet acc nf.1 v) with
        | mk t2 r2 =>
          have hred : runFactories env qpu bqm problem (nf :: rest) acc = (t ++ t2, r2) := by
            simp only [runFactories, hc, hrec]
          rw [hred]
          constructor
          · intro h2
            obtain ⟨x, hx, hxe⟩ := (ih (odSet acc nf.1 v)).mp (by rw [hrec]; exact h2)
            exact ⟨x, List.mem_cons_of_mem nf hx, hxe⟩
          · rintro ⟨x, hx, hxe⟩
            rcases List.mem_cons.mp hx with h1 | h1
            · subst h1
              rw [hc] at hxe
              simp [excIsError] at hxe
            · have h2 := (ih (odSet acc nf.1 v)).mpr ⟨x, h1, hxe⟩
              rw [hrec] at h2
              exact h2

theorem runProblems_error_iff (env : Env) (qpu : Qpu) (fs : List (String × Factory)) :
    ∀ (ps : List String) (results : Results),
      (excIsError (runProblems env qpu fs ps results).2 = true ↔
        ∃ p ∈ ps, excIsError (env.loadBqm p) = true ∨
          ∃ b, env.loadBqm p = .ok b ∧
            ∃ nf ∈ fs, excIsError (runCase env qpu b p nf.1 nf.2).2 = true) := by
  intro ps
  induction ps with
  | nil => intro results; simp [runProblems, excIsError]
  | cons p rest ih =>
    intro results
    cases hl : env.loadBqm p with
    | error e =>
      have hred : runProblems env qpu fs (p :: rest) results =
          ([Event.loadCall p], .error e) := by
        simp only [runProblems, hl]
      rw [hred]
      simp only [excIsError, true_iff]
      exact ⟨p, List.mem_cons_self p rest, Or.inl (by rw [hl])⟩
    | ok b =>
      cases hrf : runFactories env qpu b p fs [] with
      | mk t r =>
        cases r with
        | error e2 =>
          have hred : runProblems env qpu fs (p :: rest) results =
              (Event.loadCall p :: t, .error e2) := by
            simp only [runProblems, hl, hrf]
          rw [hred]
          simp only [excIsError, true_iff]
          refine ⟨p, List.mem_cons_self p rest, Or.inr ⟨b, hl, ?_⟩⟩
          have h2 : excIsError (runFactories env qpu b p fs []).2 = true := by
            rw [hrf]; rfl
          exact (runFactories_error_iff env qpu b p fs []).mp h2
        | ok inner =>
          cases hrec : runProblems env qpu fs rest
              (odSet (odSet results p []) p inner) with
          | mk t2 r2 =>
            have hred : runProblems env qpu fs (p :: rest) results =
                (Event.loadCall p :: (t ++ t2), r2) := by
              simp only [runProblems, hl, hrf, hrec]
            rw [hred]
            constructor
            · intro h2
              obtain ⟨q, hq, hqe⟩ := (ih (odSet (odSet results p []) p inner)).mp
                (by rw [hrec]; exact h2)
              exact ⟨q, List.mem_cons_of_mem p hq, hqe⟩
            · rintro ⟨q, hq, hqe⟩
              rcases List.mem_cons.mp hq with h1 | h1
              · subst h1
                rcases hqe with h3 | ⟨b2, hb2, nf, hnf, hce⟩
                · rw [hl] at h3
                  simp [excIsError] at h3
                · rw [hl] at hb2
                  injection hb2 with hb3
                  subst hb3
                  have h4 := (runFactories_error_iff env qpu b q fs []).mpr
                    ⟨nf, hnf, hce⟩
                  rw [hrf] at h4
                  simp [excIsError] at h4
              · have h2 := (ih (odSet (odSet results p []) p inner)).mpr ⟨q, h1, hqe⟩
                rw [hrec] at h2
                exact h2

theorem run_error_iff (env : Env) (ps : List String) (fs : List (String × Factory)) :
    excIsError (run env ps fs).2 = true ↔
      excIsError env.mkQpu = true ∨
        ∃ qpu, env.mkQpu = .ok qpu ∧ ∃ p ∈ ps,
          (excIsError (env.loadBqm p) = true ∨
            ∃ b, env.loadBqm p = .ok b ∧
              ∃ nf ∈ fs, excIsError (runCase env qpu b p nf.1 nf.2).2 = true) := by
  cases hq : env.mkQpu with
  | error e =>
    have hred : run env ps fs = ([Event.mkQpuCall none], .error e) := by
      simp only [run, hq]
    rw [hred]
    simp [excIsError, hq]
  | ok qpu =>
    cases hrec : runProblems env qpu fs ps [] with
    | mk t r =>
      have hred : run env ps fs = (Event.mkQpuCall (some qpu) :: t, r) := by
        simp only [run, hq, hrec]
      rw [hred]
      have hiff := runProblems_error_iff env qpu fs ps []
      rw [hrec] at hiff
      simp only [hq]
      constructor
      · intro h2
        exact Or.inr ⟨qpu, rfl, hiff.mp h2⟩
      · rintro (h2 | ⟨qpu2, hq2, h3⟩)
        · simp [excIsError] at h2
        · injection hq2 with hq3
          subst hq3
          exact hiff.mpr h3

/- Trace lemmas: which external events a run can emit. -/

theorem runFactories_fst_mem (env : Env) (qpu : Qpu) (bqm : Bqm) (problem : String) :
    ∀ (fs : List (String × Factory)) (acc : List (String × CaseResult)) {e : Event},
      e ∈ (runFactories env qpu bqm problem fs acc).1 →
      ∃ nf ∈ fs, e ∈ (runCase env qpu bqm problem nf.1 nf.2).1 := by
  intro fs
  induction fs with
  | nil => intro acc e h; simp [runFactories] at h
  | cons nf rest ih =>
    intro acc e h
    cases hc : runCase env qpu bqm problem nf.1 nf.2 with
    | mk t r =>
      cases r with
      | error e2 =>
        have hred : runFactories env qpu bqm problem (nf :: rest) acc = (t, .error e2) := by
          simp only [runFactories, hc]
        rw [hred] at h
        exact ⟨nf, List.mem_cons_self nf rest, by rw [hc]; exact h⟩
      | ok v =>
        cases hrec : runFactories env qpu bqm problem rest (odSet acc nf.1 v) with
        | mk t2 r2 =>
          have hred : runFactories env qpu bqm problem (nf :: rest) acc = (t ++ t2, r2) := by
            simp only [runFactories, hc, hrec]
          rw [hred] at h
          rcases List.mem_append.mp h with h1 | h1
          · exact ⟨nf, List.mem_cons_self nf rest, by rw [hc]; exact h1⟩
          · obtain ⟨x, hx, hxe⟩ := ih (odSet acc nf.1 v) (by rw [hrec]; exact h1)
            exact ⟨x, List.mem_cons_of_mem nf hx, hxe⟩

theorem runProblems_fst_mem (env : Env) (qpu : Qpu) (fs : List (String × Factory)) :
    ∀ (ps : List String) (results : Results) {e : Event},
      e ∈ (runProblems env qpu fs ps results).1 →
      (∃ p ∈ ps, e = Event.loadCall p) ∨
        ∃ p ∈ ps, ∃ b, env.loadBqm p = .ok b ∧
          e ∈ (runFactories env qpu b p fs []).1 := by
  intro ps
  induction ps with
  | nil => intro results e h; simp [runProblems] at h
  | cons p rest ih =>
    intro results e h
    cases hl : env.loadBqm p with
    | error e2 =>
      have hred : runProblems env qpu fs (p :: rest) results =
          ([Event.loadCall p], .error e2) := by
        simp only [runProblems, hl]
      rw [hred] at h
      simp at h
      exact Or.inl ⟨p, List.mem_cons_self p rest, h⟩
    | ok b =>
      cases hrf : runFactories env qpu b p fs [] with
      | mk t r =>
        cases r with
        | error e2 =>
          have hred : runProblems env qpu fs (p :: rest) results =
              (Event.loadCall p :: t, .error e2) := by
            simp only [runProblems, hl, hrf]
          rw [hred] at h
          rcases List.mem_cons.mp h with h1 | h1
          · exact Or.inl ⟨p, List.mem_cons_self p rest, h1⟩
          · exact Or.inr ⟨p, List.mem_cons_self p rest, b, hl, by rw [hrf]; exact h1⟩
        | ok inner =>
          cases hrec : runProblems env qpu fs rest
              (odSet (odSet results p []) p inner) with
          | mk t2 r2 =>
            have hred : runProblems env qpu fs (p :: rest) results =
                (Event.loadCall p :: (t ++ t2), r2) := by
              simp only [runProblems, hl, hrf, hrec]
            rw [hred] at h
            rcases List.mem_cons.mp h with h1 | h1
            · exact Or.inl ⟨p, List.mem_cons_self p rest, h1⟩
            · rcases List.mem_append.mp h1 with h2 | h2
              · exact Or.inr ⟨p, List.mem_cons_self p rest, b, hl, by rw [hrf]; exact h2⟩
              · rcases ih (odSet (odSet results p []) p inner) (by rw [hrec]; exact h2) with
                  ⟨q, hq, hqe⟩ | ⟨q, hq, b2, hb2, hqe⟩
                · exact Or.inl ⟨q, List.mem_cons_of_mem p hq, hqe⟩
                · exact Or.inr ⟨q, List.mem_cons_of_mem p hq, b2, hb2, hqe⟩

theorem runProblems_event_shape (env : Env) (qpu : Qpu) (fs : List (String × Factory))
    (ps : List String) (results : Results) {e : Event}
    (h : e ∈ (runProblems env qpu fs ps results).1) :
    (∃ p, e = Event.loadCall p) ∨
      (∃ p n, e = Event.factoryCall p n qpu) ∨
      (∃ p n b, e = Event.solverRun p n b (State.from_sample (min_sample b) b)) := by
  rcases runProblems_fst_mem env qpu fs ps results h with
    ⟨p, _, he⟩ | ⟨p, _, b, _, h2⟩
  · exact Or.inl ⟨p, he⟩
  · obtain ⟨nf, _, h3⟩ := runFactories_fst_mem env qpu b p fs [] h2
    rcases runCase_fst_mem env qpu b p nf.1 nf.2 h3 with h4 | h4
    · exact Or.inr (Or.inl ⟨p, nf.1, h4⟩)
    · exact Or.inr (Or.inr ⟨p, nf.1, b, h4⟩)

/- General outer-loop lemma, valid for problem lists with duplicates. -/

theorem runProblems_general (env : Env) (qpu : Qpu) (fs : List (String × Factory))
    (hndn : (fs.map Prod.fst).Nodup) :
    ∀ (ps : List String) (results : Results),
      (∀ p ∈ ps, excIsError (env.loadBqm p) = false) →
      (∀ p ∈ ps, ∀ b, env.loadBqm p = .ok b →
        ∀ nf ∈ fs, excIsError (runCase env qpu b p nf.1 nf.2).2 = false) →
      ∃ res, (runProblems env qpu fs ps results).2 = .ok res ∧
        (∀ x, x ∈ odKeys res ↔ x ∈ odKeys results ∨ x ∈ ps) ∧
        ((odKeys results).Nodup → (odKeys res).Nodup) ∧
        (∀ p, p ∉ ps → odLookup res p = odLookup results p) ∧
        (∀ p ∈ ps, ∀ b, env.loadBqm p = .ok b →
          odLookup res p = some (fs.map (fun nf => (nf.1, caseValue env qpu b p nf)))) := by
  intro ps
  induction ps with
  | nil =>
    intro results _ _
    refine ⟨results, by simp [runProblems], by simp, fun h => h, fun p _ => rfl, ?_⟩
    intro p hp
    cases hp
  | cons p rest ih =>
    intro results hload hok
    obtain ⟨b, hb⟩ : ∃ b, env.loadBqm p = .ok b := by
      cases hl : env.loadBqm p with
      | ok b => exact ⟨b, rfl⟩
      | error e =>
        have hl0 := hload p (List.mem_cons_self p rest)
        rw [hl] at hl0; simp [excIsError] at hl0
    have hinner := runFactories_clean env qpu b p fs [] hndn
      (fun nf hnf => hok p (List.mem_cons_self p rest) b hb nf hnf)
      (by intro nf _ hmem; simp [odKeys] at hmem)
    cases hrf : runFactories env qpu b p fs [] with
    | mk t r =>
      have hr : r = Except.ok
          (fs.map (fun nf => (nf.1, caseValue env qpu b p nf))) := by
        rw [hrf] at hinner
        rw [List.nil_append] at hinner
        exact hinner
      subst hr
      obtain ⟨res, hres, hkeys, hnd, hpres, hval⟩ := ih
        (odSet (odSet results p [])
          p (fs.map (fun nf => (nf.1, caseValue env qpu b p nf))))
        (fun q hq => hload q (List.mem_cons_of_mem p hq))
        (fun q hq => hok q (List.mem_cons_of_mem p hq))
      cases hrec : runProblems env qpu fs rest
          (odSet (odSet results p [])
            p (fs.map (fun nf => (nf.1, caseValue env qpu b p nf)))) with
      | mk t2 r2 =>
        have hred : runProblems env qpu fs (p :: rest) results =
            (Event.loadCall p :: (t ++ t2), r2) := by
          simp only [runProblems, hb, hrf, hrec]
        rw [hrec] at hres
        have hr2 : r2 = Except.ok res := hres
        subst hr2
        refine ⟨res, by rw [hred], ?_, ?_, ?_, ?_⟩
        · intro x
          rw [hkeys x, mem_odKeys_odSet, mem_odKeys_odSet, List.mem_cons]
          tauto
        · intro hndr
          exact hnd (odKeys_odSet_nodup _ (odKeys_odSet_nodup _ hndr))
        · intro q hq
          have hq1 : q ≠ p := fun hh => hq (hh ▸ List.mem_cons_self p rest)
          have hq2 : q ∉ rest := fun hh => hq (List.mem_cons_of_mem p hh)
          rw [hpres q hq2, odLookup_odSet_ne _ _ hq1, odLookup_odSet_ne _ _ hq1]
        · intro q hq b2 hb2
          by_cases hqr : q ∈ rest
          · exact hval q hqr b2 hb2
          · have hq1 : q = p := by
              rcases List.mem_cons.mp hq with h2 | h2
              · exact h2
              · exact absurd h2 hqr
            subst hq1
            rw [hb] at hb2
            injection hb2 with hb3
            subst hb3
            rw [hpres q hqr, odLookup_odSet_self]

/- Trace counting: one load event per occurrence of a problem path. -/

theorem runFactories_no_load (env : Env) (qpu : Qpu) (bqm : Bqm) (problem : String)
    (fs : List (String × Factory)) (acc : List (String × CaseResult)) (p : String) :
    Event.loadCall p ∉ (runFactories env qpu bqm problem fs acc).1 := by
  intro h
  obtain ⟨nf, _, h2⟩ := runFactories_fst_mem env qpu bqm problem fs acc h
  rcases runCase_fst_mem env qpu bqm problem nf.1 nf.2 h2 with h3 | h3 <;> simp at h3

theorem runProblems_count_load (env : Env) (qpu : Qpu) (fs : List (String × Factory)) :
    ∀ (ps : List String) (results : Results) (p : String),
      (∀ q ∈ ps, excIsError (env.loadBqm q) = false) →
      (∀ q ∈ ps, ∀ b, env.loadBqm q = .ok b →
        ∀ nf ∈ fs, excIsError (runCase env qpu b q nf.1 nf.2).2 = false) →
      ((runProblems env qpu fs ps results).1.count (Event.loadCall p)) = ps.count p := by
  intro ps
  induction ps with
  | nil => intro results p _ _; simp [runProblems]
  | cons q rest ih =>
    intro results p hload hok
    obtain ⟨b, hb⟩ : ∃ b, env.loadBqm q = .ok b := by
      cases hl : env.loadBqm q with
      | ok b => exact ⟨b, rfl⟩
      | error e =>
        have hl0 := hload q (List.mem_cons_self q rest)
        rw [hl] at hl0; simp [excIsError] at hl0
    obtain ⟨inner, hinner⟩ :
        ∃ inner, (runFactories env qpu b q fs []).2 = .ok inner := by
      cases hrf2 : (runFactories env qpu b q fs []).2 with
      | ok inner => exact ⟨inner, rfl⟩
      | error e =>
        have herr : excIsError (runFactories env qpu b q fs []).2 = true := by
          rw [hrf2]; rfl
        obtain ⟨nf, hnf, hce⟩ := (runFactories_error_iff env qpu b q fs []).mp herr
        have := hok q (List.mem_cons_self q rest) b hb nf hnf
        rw [this] at hce
        cases hce
    cases hrf : runFactories env qpu b q fs [] with
    | mk t r =>
      have hr : r = Except.ok inner := by rw [hrf] at hinner; exact hinner
      subst hr
      cases hrec : runProblems env qpu fs rest (odSet (odSet results q []) q inner) with
      | mk t2 r2 =>
        have hred : runProblems env qpu fs (q :: rest) results =
            (Event.loadCall q :: (t ++ t2), r2) := by
          simp only [runProblems, hb, hrf, hrec]
        rw [hred]
        have hnot : Event.loadCall p ∉ t := by
          have := runFactories_no_load env qpu b q fs [] p
          rw [hrf] at this
          exact this
        have ht0 : t.count (Event.loadCall p) = 0 := List.count_eq_zero.mpr hnot
        have ht2 : t2.count (Event.loadCall p) = rest.count p := by
          have := ih (odSet (odSet results q []) q inner) p
            (fun x hx => hload x (List.mem_cons_of_mem q hx))
            (fun x hx => hok x (List.mem_cons_of_mem q hx))
          rw [hrec] at this
          exact this
        have hbeq : (Event.loadCall q == Event.loadCall p) = (q == p) := by
          by_cases hqp : q = p
          · subst hqp; simp
          · have h1 : (Event.loadCall q == Event.loadCall p) = false :=
              beq_eq_false_iff_ne.mpr (by simp [hqp])
            have h2 : (q == p) = false := beq_eq_false_iff_ne.mpr hqp
            rw [h1, h2]
        show (Event.loadCall q :: (t ++ t2)).count (Event.loadCall p) = _
        rw [List.count_cons, List.count_append, ht0, ht2, List.count_cons, hbeq,
          Nat.zero_add]

/- Wall-clock independence: erasing the wall-clock fields makes the run
independent of the measured durations. -/

theorem mapVal_odSet {β γ : Type} (g : β → γ) :
    ∀ (d : List (String × β)) (k : String) (v : β),
      mapVal g (odSet d k v) = odSet (mapVal g d) k (g v) := by
  intro d
  induction d with
  | nil => intro k v; rfl
  | cons p rest ih =>
    intro k v
    by_cases hpk : p.1 = k
    · simp [odSet, mapVal, hpk]
    · simp [odSet, mapVal, hpk]
      simpa [mapVal] using ih k v

theorem runCase_strip (env1 env2 : Env) (qpu : Qpu) (bqm : Bqm)
    (problem name : String) (f : Factory) :
    (runCase env1 qpu bqm problem name f).1 =
      (runCase env2 qpu bqm problem name f).1 ∧
    stripCaseOutcome (runCase env1 qpu bqm problem name f).2 =
      stripCaseOutcome (runCase env2 qpu bqm problem name f).2 := by
  unfold runCase
  cases f bqm qpu with
  | error e => exact ⟨rfl, rfl⟩
  | ok solver =>
    dsimp only
    refine ⟨rfl, ?_⟩
    unfold handle
    cases solver (State.from_sample (min_sample bqm) bqm) with
    | error e => rfl
    | ok st => rfl

theorem runFactories_strip (env1 env2 : Env) (qpu : Qpu) (bqm : Bqm)
    (problem : String) :
    ∀ (fs : List (String × Factory)) (acc1 acc2 : List (String × CaseResult)),
      stripInner acc1 = stripInner acc2 →
      (runFactories env1 qpu bqm problem fs acc1).1 =
        (runFactories env2 qpu bqm problem fs acc2).1 ∧
      stripInnerOutcome (runFactories env1 qpu bqm problem fs acc1).2 =
        stripInnerOutcome (runFactories env2 qpu bqm problem fs acc2).2 := by
  intro fs
  induction fs with
  | nil =>
    intro acc1 acc2 hacc
    exact ⟨rfl, by simpa [runFactories, stripInnerOutcome] using hacc⟩
  | cons nf rest ih =>
    intro acc1 acc2 hacc
    obtain ⟨ht, hs⟩ := runCase_strip env1 env2 qpu bqm problem nf.1 nf.2
    cases hc1 : runCase env1 qpu bqm problem nf.1 nf.2 with
    | mk t1 r1 =>
      cases hc2 : runCase env2 qpu bqm problem nf.1 nf.2 with
      | mk t2 r2 =>
        rw [hc1, hc2] at ht hs
        cases r1 with
        | error e1 =>
          have hr2 : r2 = .error e1 := by
            cases r2 with
            | error e2 =>
              simp [stripCaseOutcome] at hs
              rw [hs]
            | ok v => simp [stripCaseOutcome] at hs
          subst hr2
          have hred1 : runFactories env1 qpu bqm problem (nf :: rest) acc1 =
              (t1, .error e1) := by
            simp only [runFactories, hc1]
          have hred2 : runFactories env2 qpu bqm problem (nf :: rest) acc2 =
              (t2, .error e1) := by
            simp only [runFactories, hc2]
          rw [hred1, hred2]
          exact ⟨ht, rfl⟩
        | ok v1 =>
          obtain ⟨v2, hv2, hsv⟩ :
              ∃ v2, r2 = .ok v2 ∧ stripCase v1 = stripCase v2 := by
            cases r2 with
            | ok v2 =>
              simp [stripCaseOutcome] at hs
              exact ⟨v2, rfl, hs⟩
            | error e2 => simp [stripCaseOutcome] at hs
          subst hv2
          have hacc2 : stripInner (odSet acc1 nf.1 v1) =
              stripInner (odSet acc2 nf.1 v2) := by
            unfold stripInner
            rw [mapVal_odSet, mapVal_odSet, hsv]
            rw [show mapVal stripCase acc1 = mapVal stripCase acc2 from hacc]
          obtain ⟨iht, ihs⟩ := ih (odSet acc1 nf.1 v1) (odSet acc2 nf.1 v2) hacc2
          cases hrec1 : runFactories env1 qpu bqm problem rest (odSet acc1 nf.1 v1) with
          | mk u1 s1 =>
            cases hrec2 : runFactories env2 qpu bqm problem rest (odSet acc2 nf.1 v2) with
            | mk u2 s2 =>
              rw [hrec1, hrec2] at iht ihs
              have htl : t1 = t2 := ht
              have hul : u1 = u2 := iht
              have hred1 : runFactories env1 qpu bqm problem (nf :: rest) acc1 =
                  (t1 ++ u1, s1) := by
                simp only [runFactories, hc1, hrec1]
              have hred2 : runFactories env2 qpu bqm problem (nf :: rest) acc2 =
                  (t2 ++ u2, s2) := by
                simp only [runFactories, hc2, hrec2]
              rw [hred1, hred2]
              refine ⟨?_, ihs⟩
              show t1 ++ u1 = t2 ++ u2
              rw [htl, hul]

theorem runProblems_strip (env1 env2 : Env) (qpu : Qpu)
    (fs : List (String × Factory)) (hl : env1.loadBqm = env2.loadBqm) :
    ∀ (ps : List String) (acc1 acc2 : Results),
      stripResults acc1 = stripResults acc2 →
      (runProblems env1 qpu fs ps acc1).1 = (runProblems env2 qpu fs ps acc2).1 ∧
      stripOutcome (runProblems env1 qpu fs ps acc1).2 =
        stripOutcome (runProblems env2 qpu fs ps acc2).2 := by
  intro ps
  induction ps with
  | nil =>
    intro acc1 acc2 hacc
    exact ⟨rfl, by simpa [runProblems, stripOutcome] using hacc⟩
  | cons p rest ih =>
    intro acc1 acc2 hacc
    cases hlp : env1.loadBqm p with
    | error e =>
      have hlp2 : env2.loadBqm p = .error e := by rw [← hl]; exact hlp
      have hred1 : runProblems env1 qpu fs (p :: rest) acc1 =
          ([Event.loadCall p], .error e) := by
        simp only [runProblems, hlp]
      have hred2 : runProblems env2 qpu fs (p :: rest) acc2 =
          ([Event.loadCall p], .error e) := by
        simp only [runProblems, hlp2]
      rw [hred1, hred2]
      exact ⟨rfl, rfl⟩
    | ok b =>
      have hlp2 : env2.loadBqm p = .ok b := by rw [← hl]; exact hlp
      obtain ⟨hft, hfs⟩ := runFactories_strip env1 env2 qpu b p fs [] [] rfl
      cases hrf1 : runFactories env1 qpu b p fs [] with
      | mk t1 r1 =>
        cases hrf2 : runFactories env2 qpu b p fs [] with
        | mk t2 r2 =>
          rw [hrf1, hrf2] at hft hfs
          cases r1 with
          | error e1 =>
            have hr2 : r2 = .error e1 := by
              cases r2 with
              | error e2 =>
                simp [stripInnerOutcome] at hfs
                rw [hfs]
              | ok v => simp [stripInnerOutcome] at hfs
            subst hr2
            have htl : t1 = t2 := hft
            have hred1 : runProblems env1 qpu fs (p :: rest) acc1 =
                (Event.loadCall p :: t1, .error e1) := by
              simp only [runProblems, hlp, hrf1]
            have hred2 : runProblems env2 qpu fs (p :: rest) acc2 =
                (Event.loadCall p :: t2, .error e1) := by
              simp only [runProblems, hlp2, hrf2]
            rw [hred1, hred2]
            refine ⟨?_, rfl⟩
            show Event.loadCall p :: t1 = Event.loadCall p :: t2
            rw [htl]
          | ok inner1 =>
            obtain ⟨inner2, hv2, hsv⟩ :
                ∃ inner2, r2 = .ok inner2 ∧ stripInner inner1 = stripInner inner2 := by
              cases r2 with
              | ok inner2 =>
                simp [stripInnerOutcome] at hfs
                exact ⟨inner2, rfl, hfs⟩
              | error e2 => simp [stripInnerOutcome] at hfs
            subst hv2
            have hacc2 : stripResults (odSet (odSet acc1 p []) p inner1) =
                stripResults (odSet (odSet acc2 p []) p inner2) := by
              unfold stripResults
              rw [mapVal_odSet, mapVal_odSet, mapVal_odSet, mapVal_odSet, hsv]
              rw [show mapVal stripInner acc1 = mapVal stripInner acc2 from hacc]
            obtain ⟨iht, ihs⟩ := ih (odSet (odSet acc1 p []) p inner1)
              (odSet (odSet acc2 p []) p inner2) hacc2
            cases hrec1 : runProblems env1 qpu fs rest
                (odSet (odSet acc1 p []) p inner1) with
            | mk u1 s1 =>
              cases hrec2 : runProblems env2 qpu fs rest
                  (odSet (odSet acc2 p []) p inner2) with
              | mk u2 s2 =>
                rw [hrec1, hrec2] at iht ihs
                have htl : t1 = t2 := hft
                have hul : u1 = u2 := iht
                have hred1 : runProblems env1 qpu fs (p :: rest) acc1 =
                    (Event.loadCall p :: (t1 ++ u1), s1) := by
                  simp only [runProblems, hlp, hrf1, hrec1]
                have hred2 : runProblems env2 qpu fs (p :: rest) acc2 =
                    (Event.loadCall p :: (t2 ++ u2), s2) := by
                  simp only [runProblems, hlp2, hrf2, hrec2]
                rw [hred1, hred2]
                refine ⟨?_, ihs⟩
                show Event.loadCall p :: (t1 ++ u1) = Event.loadCall p :: (t2 ++ u2)
                rw [htl, hul]

/- Small helpers used by the claim theorems below. -/

theorem excErr_some {α : Type} {x : Fallible α} {e : Exc}
    (h : excErr? x = some e) : x = .error e := by
  cases x with
  | ok a => simp [excErr?] at h
  | error e2 =>
    simp [excErr?] at h
    rw [h]

theorem runCase_ok_of_ordinary (env : Env) (qpu : Qpu) (bqm : Bqm)
    (problem name : String) (f : Factory)
    (h : ∀ e, excErr? (tryBody qpu bqm f) = some e → e.isException = true) :
    excIsError (runCase env qpu bqm problem name f).2 = false := by
  cases hc : (runCase env qpu bqm problem name f).2 with
  | ok v => rfl
  | error e =>
    obtain ⟨hte, hbase⟩ := (runCase_error_iff env qpu bqm problem name f e).mp hc
    have hh := h e (by rw [hte]; rfl)
    rw [hh] at hbase
    cases hbase

theorem runCase_error_iff2 (env : Env) (qpu : Qpu) (bqm : Bqm)
    (problem name : String) (f : Factory) :
    excIsError (runCase env qpu bqm problem name f).2 = true ↔
      ∃ e, excErr? (tryBody qpu bqm f) = some e ∧ e.isException = false := by
  constructor
  · intro h
    cases hc : (runCase env qpu bqm problem name f).2 with
    | ok v => rw [hc] at h; cases h
    | error e =>
      obtain ⟨ht, hb⟩ := (runCase_error_iff env qpu bqm problem name f e).mp hc
      exact ⟨e, by rw [ht]; rfl, hb⟩
  · rintro ⟨e, he, hb⟩
    have ht := excErr_some he
    have h2 := (runCase_error_iff env qpu bqm problem name f e).mpr ⟨ht, hb⟩
    rw [h2]
    rfl

theorem odKeys_graph {β : Type} (l : List String) (g : String → β) :
    odKeys (l.map (fun q => (q, g q))) = l := by
  induction l with
  | nil => rfl
  | cons a rest ih => simpa [odKeys] using ih

theorem odKeys_pairmap {α β : Type} (l : List (String × α)) (g : String × α → β) :
    odKeys (l.map (fun x => (x.1, g x))) = l.map Prod.fst := by
  induction l with
  | nil => rfl
  | cons a rest ih => simp [odKeys]

/-- C2 (amended): every failure raised inside the per-case try block and
belonging to the `Exception` class is treated uniformly, whatever its kind:
the handler records exactly the `repr` string of the exception as the failed
case entry, with no retry and no transient/permanent distinction.  (The
original claim also asserted that a malformed problem file is handled this
way; the counterexample shows that a parse failure occurs outside the
per-case handler and aborts the run instead.) -/
theorem C2_uniform_handling_of_caught_failures (env : Env) (qpu : Qpu)
    (bqm : Bqm) (problem name : String) (f : Factory) (e : Exc)
    (he : excErr? (tryBody qpu bqm f) = some e) (ho : e.isException = true) :
    (runCase env qpu bqm problem name f).2 = .ok (.failure e.reprStr) :=
  runCase_caught env qpu bqm problem name f (excErr_some he) ho

/-- C2 (witness): the uniform-handling theorem applied to a concrete
factory whose construction raises an ordinary ValueError. -/
theorem C2_uniform_handling_witness :
    (runCase envW ⟨0⟩ bqmW "p1" "bad" badFactory).2 =
      .ok (.failure "ValueError from pipeline construction") :=
  C2_uniform_handling_of_caught_failures envW ⟨0⟩ bqmW "p1" "bad" badFactory
    (.ordinary "ValueError from pipeline construction") rfl rfl

/-- C2 (counterexample): a malformed problem file is NOT handled as a
recorded per-case failure: the parse error at line 106 is raised outside
the per-case try block, so the whole run terminates with it and nothing is
recorded for the case. -/
theorem C2_cex_malformed_problem_is_fatal :
    (run envMal ["p1"] fsOk).2 =
      .error (Exc.ordinary "ValueError from from_coo on malformed file") := rfl

/-- C5 (amended): the run is fatal exactly when the device handle fails at
startup, when some problem file fails to open or parse (both outside the
per-case try block, and such exceptions propagate), or when an exception
that is not of the `Exception` class is raised inside the per-case block.
(The original claim said the run is fatal ONLY for errors outside the
per-case try block; the counterexample shows a KeyboardInterrupt-style
exception inside the block is also fatal.) -/
theorem C5_fatal_exactly_characterized (env : Env) (ps : List String)
    (fs : List (String × Factory)) :
    excIsError (run env ps fs).2 = true ↔
      excIsError env.mkQpu = true ∨
        ∃ qpu, env.mkQpu = .ok qpu ∧ ∃ p ∈ ps,
          (excIsError (env.loadBqm p) = true ∨
            ∃ b, env.loadBqm p = .ok b ∧ ∃ nf ∈ fs, ∃ e,
              excErr? (tryBody qpu b nf.2) = some e ∧ e.isException = false) := by
  rw [run_error_iff]
  constructor
  · rintro (h | ⟨qpu, hq, p, hp, h⟩)
    · exact Or.inl h
    · refine Or.inr ⟨qpu, hq, p, hp, ?_⟩
      rcases h with h | ⟨b, hb, nf, hnf, hce⟩
      · exact Or.inl h
      · exact Or.inr ⟨b, hb, nf, hnf,
          (runCase_error_iff2 env qpu b p nf.1 nf.2).mp hce⟩
  · rintro (h | ⟨qpu, hq, p, hp, h⟩)
    · exact Or.inl h
    · refine Or.inr ⟨qpu, hq, p, hp, ?_⟩
      rcases h with h | ⟨b, hb, nf, hnf, e, he, hbase⟩
      · exact Or.inl h
      · exact Or.inr ⟨b, hb, nf, hnf,
          (runCase_error_iff2 env qpu b p nf.1 nf.2).mpr ⟨e, he, hbase⟩⟩

/-- C5 (counterexample): a run in which the device handle and the problem
load both succeed is nevertheless fatal, because a KeyboardInterrupt-style
exception (not of the `Exception` class) is raised inside the per-case try
block — refuting that the run is fatal only for errors occurring outside
the per-case try block. -/
theorem C5_cex_base_exception_inside_case_is_fatal :
    envW.mkQpu = .ok ⟨0⟩ ∧ envW.loadBqm "p1" = .ok bqmW ∧
      excIsError (run envW ["p1"] fsB).2 = true := ⟨rfl, rfl, rfl⟩

/-- C9: the per-case handler catches only `Exception`-class exceptions: an
exception outside that class (e.g. KeyboardInterrupt or SystemExit) raised
while constructing or running a pipeline is not recorded as a failed case
(the case outcome is the uncaught exception itself, not a recorded entry),
and the whole run terminates abnormally. -/
theorem C9_non_exception_class_propagates (env : Env) (ps : List String)
    (fs : List (String × Factory)) (qpu : Qpu) (p : String) (b : Bqm)
    (n : String) (f : Factory) (e : Exc)
    (hmem : p ∈ ps) (hnf : (n, f) ∈ fs)
    (hq : env.mkQpu = .ok qpu) (hb : env.loadBqm p = .ok b)
    (he : excErr? (tryBody qpu b f) = some e) (hbase : e.isException = false) :
    (runCase env qpu b p n f).2 = .error e ∧
      excIsError (run env ps fs).2 = true := by
  have ht := excErr_some he
  have h1 : (runCase env qpu b p n f).2 = .error e :=
    (runCase_error_iff env qpu b p n f e).mpr ⟨ht, hbase⟩
  refine ⟨h1, ?_⟩
  apply (run_error_iff env ps fs).mpr
  refine Or.inr ⟨qpu, hq, p, hmem, Or.inr ⟨b, hb, (n, f), hnf, ?_⟩⟩
  show excIsError (runCase env qpu b p n f).2 = true
  rw [h1]
  rfl

/-- C9 (witness): the propagation theorem applied to a concrete run whose
single pipeline factory raises a KeyboardInterrupt-style exception. -/
theorem C9_non_exception_class_propagates_witness :
    (runCase envW ⟨0⟩ bqmW "p1" "intr" interruptFactory).2 =
      .error (.base "KeyboardInterrupt at pipeline build") ∧
      excIsError (run envW ["p1"] fsB).2 = true :=
  C9_non_exception_class_propagates envW ["p1"] fsB ⟨0⟩ "p1" bqmW "intr"
    interruptFactory (.base "KeyboardInterrupt at pipeline build")
    (List.mem_singleton_self _) (List.mem_singleton_self _) rfl rfl rfl rfl

/-- C6: the device handle is obtained exactly once, at the start of the
run and before any problem is processed (the handle-construction event is
the first event of the trace and occurs nowhere else), and when the
construction succeeds, every pipeline-factory invocation across all
problems and pipelines receives exactly that handle. -/
theorem C6_qpu_obtained_once_and_shared (env : Env) (ps : List String)
    (fs : List (String × Factory)) :
    ∃ t, (run env ps fs).1 = Event.mkQpuCall (excToOption env.mkQpu) :: t ∧
      (∀ o : Option Qpu, Event.mkQpuCall o ∉ t) ∧
      ∀ q, env.mkQpu = .ok q →
        ∀ p n q2, Event.factoryCall p n q2 ∈ t → q2 = q := by
  cases hq : env.mkQpu with
  | error e =>
    refine ⟨[], ?_, by simp, ?_⟩
    · have hred : run env ps fs = ([Event.mkQpuCall none], .error e) := by
        simp only [run, hq]
      rw [hred]
      rfl
    · intro q hq2
      cases hq2
  | ok qpu =>
    cases hrec : runProblems env qpu fs ps [] with
    | mk t r =>
      refine ⟨t, ?_, ?_, ?_⟩
      · have hred : run env ps fs = (Event.mkQpuCall (some qpu) :: t, r) := by
          simp only [run, hq, hrec]
        rw [hred]
        rfl
      · intro o hmem
        have hmem2 : Event.mkQpuCall o ∈ (runProblems env qpu fs ps []).1 := by
          rw [hrec]; exact hmem
        rcases runProblems_event_shape env qpu fs ps [] hmem2 with
          ⟨p, h⟩ | ⟨p, n, h⟩ | ⟨p, n, b, h⟩ <;> simp at h
      · intro q hq2 p n q2 hmem
        have hq3 : qpu = q := by injection hq2
        subst hq3
        have hmem2 : Event.factoryCall p n q2 ∈ (runProblems env qpu fs ps []).1 := by
          rw [hrec]; exact hmem
        rcases runProblems_event_shape env qpu fs ps [] hmem2 with
          ⟨p2, h⟩ | ⟨p2, n2, h⟩ | ⟨p2, n2, b, h⟩
        · cases h
        · simp at h
          exact h.2.2
        · cases h

/-- C6 (witness): the handle-sharing theorem applied to a concrete run
with two problems and two pipelines. -/
theorem C6_qpu_obtained_once_and_shared_witness :
    ∃ t, (run envW ["p1", "p2"] fsW).1 =
        Event.mkQpuCall (excToOption envW.mkQpu) :: t ∧
      (∀ o : Option Qpu, Event.mkQpuCall o ∉ t) ∧
      ∀ q, envW.mkQpu = .ok q →
        ∀ p n q2, Event.factoryCall p n q2 ∈ t → q2 = q :=
  C6_qpu_obtained_once_and_shared envW ["p1", "p2"] fsW

/-- C7: for every case, the initial search state is built from the
minimal-sample default assignment of the problem (every pipeline execution
recorded in the trace runs against exactly
`State.from_sample (min_sample bqm) bqm`), and when the factory succeeds
the case outcome is exactly the handled result of running the built solver
on that state, so the pipeline is executed against precisely that fresh
state. -/
theorem C7_initial_state_seeded_with_min_sample (env : Env) (ps : List String)
    (fs : List (String × Factory)) :
    (∀ p n b st, Event.solverRun p n b st ∈ (run env ps fs).1 →
        st = State.from_sample (min_sample b) b) ∧
    ∀ (qpu : Qpu) (bqm : Bqm) (problem name : String) (f : Factory)
      (solver : Solver), f bqm qpu = .ok solver →
      (runCase env qpu bqm problem name f).1 =
        [Event.factoryCall problem name qpu,
         Event.solverRun problem name bqm
           (State.from_sample (min_sample bqm) bqm)] ∧
      (runCase env qpu bqm problem name f).2 =
        handle env problem name
          (solver (State.from_sample (min_sample bqm) bqm)) := by
  constructor
  · intro p n b st hmem
    cases hq : env.mkQpu with
    | error e =>
      have hred : run env ps fs = ([Event.mkQpuCall none], .error e) := by
        simp only [run, hq]
      rw [hred] at hmem
      simp at hmem
    | ok qpu =>
      cases hrec : runProblems env qpu fs ps [] with
      | mk t r =>
        have hred : run env ps fs = (Event.mkQpuCall (some qpu) :: t, r) := by
          simp only [run, hq, hrec]
        rw [hred] at hmem
        rcases List.mem_cons.mp hmem with h1 | h1
        · cases h1
        · have h2 : Event.solverRun p n b st ∈ (runProblems env qpu fs ps []).1 := by
            rw [hrec]; exact h1
          rcases runProblems_event_shape env qpu fs ps [] h2 with
            ⟨p2, h⟩ | ⟨p2, n2, h⟩ | ⟨p2, n2, b2, h⟩
          · cases h
          · cases h
          · injection h with e1 e2 e3 e4
            subst e3
            exact e4
  · intro qpu bqm problem name f solver hf
    constructor
    · unfold runCase
      rw [hf]
    · rw [runCase_snd]
      have hbody : tryBody qpu bqm f =
          solver (State.from_sample (min_sample bqm) bqm) := by
        unfold tryBody
        rw [hf]
      rw [hbody]

/-- C7 (witness): the seeding theorem applied to a concrete factory that
succeeds with the identity solver. -/
theorem C7_initial_state_seeded_witness :
    (runCase envW ⟨0⟩ bqmW "p1" "ok" okFactory).1 =
      [Event.factoryCall "p1" "ok" ⟨0⟩,
       Event.solverRun "p1" "ok" bqmW
         (State.from_sample (min_sample bqmW) bqmW)] ∧
    (runCase envW ⟨0⟩ bqmW "p1" "ok" okFactory).2 =
      handle envW "p1" "ok"
        (idSolver (State.from_sample (min_sample bqmW) bqmW)) :=
  (C7_initial_state_seeded_with_min_sample envW ["p1"] fsOk).2
    ⟨0⟩ bqmW "p1" "ok" okFactory idSolver rfl

/-- C8: two runs of the driver on the same problem list and the same
pipeline list, against external worlds that agree on handle construction,
problem loading, and (deterministic) pipeline behaviour but may measure
different wall-clock durations, produce outcomes that are identical after
erasing the wall-clock fields — in particular identical energy values for
every (problem, pipeline) entry — and identical event traces. -/
theorem C8_deterministic_reruns_reproduce_energies (env1 env2 : Env)
    (ps : List String) (fs : List (String × Factory))
    (hq : env1.mkQpu = env2.mkQpu) (hl : env1.loadBqm = env2.loadBqm) :
    stripOutcome (run env1 ps fs).2 = stripOutcome (run env2 ps fs).2 ∧
      (run env1 ps fs).1 = (run env2 ps fs).1 := by
  cases hq1 : env1.mkQpu with
  | error e =>
    have hq2 : env2.mkQpu = .error e := by rw [← hq]; exact hq1
    have hred1 : run env1 ps fs = ([Event.mkQpuCall none], .error e) := by
      simp only [run, hq1]
    have hred2 : run env2 ps fs = ([Event.mkQpuCall none], .error e) := by
      simp only [run, hq2]
    rw [hred1, hred2]
    exact ⟨rfl, rfl⟩
  | ok qpu =>
    have hq2 : env2.mkQpu = .ok qpu := by rw [← hq]; exact hq1
    obtain ⟨ht, hs⟩ := runProblems_strip env1 env2 qpu fs hl ps [] [] rfl
    cases hrec1 : runProblems env1 qpu fs ps [] with
    | mk t1 r1 =>
      cases hrec2 : runProblems env2 qpu fs ps [] with
      | mk t2 r2 =>
        rw [hrec1, hrec2] at ht hs
        have htl : t1 = t2 := ht
        have hsl : stripOutcome r1 = stripOutcome r2 := hs
        have hred1 : run env1 ps fs = (Event.mkQpuCall (some qpu) :: t1, r1) := by
          simp only [run, hq1, hrec1]
        have hred2 : run env2 ps fs = (Event.mkQpuCall (some qpu) :: t2, r2) := by
          simp only [run, hq2, hrec2]
        rw [hred1, hred2]
        refine ⟨hsl, ?_⟩
        show Event.mkQpuCall (some qpu) :: t1 = Event.mkQpuCall (some qpu) :: t2
        rw [htl]

/-- C8 (witness): the rerun theorem applied to two concrete environments
that differ only in the measured wall-clock durations. -/
theorem C8_deterministic_reruns_witness :
    stripOutcome (run envW ["p1"] fsW).2 =
      stripOutcome (run envW2 ["p1"] fsW).2 ∧
    (run envW ["p1"] fsW).1 = (run envW2 ["p1"] fsW).1 :=
  C8_deterministic_reruns_reproduce_energies envW envW2 ["p1"] fsW rfl rfl

/-- C1: in a run whose startup and problem loads succeed and in which
every exception arising in a per-case try body is of the `Exception` class,
the run never aborts — it returns a result mapping — every (problem,
pipeline) case has an entry, and every case whose try body raised an
exception has exactly the textual description of that exception recorded
under (problem, pipeline name); all remaining cases are still attempted
and recorded. -/
theorem C1_per_case_failures_recorded_and_run_continues
    (env : Env) (qpu : Qpu) (ps : List String) (fs : List (String × Factory))
    (hq : env.mkQpu = .ok qpu)
    (hndp : ps.Nodup) (hndn : (fs.map Prod.fst).Nodup)
    (hload : ∀ p ∈ ps, excIsError (env.loadBqm p) = false)
    (hord : ∀ p ∈ ps, ∀ b, env.loadBqm p = .ok b → ∀ nf ∈ fs,
      ∀ e, excErr? (tryBody qpu b nf.2) = some e → e.isException = true) :
    ∃ res, (run env ps fs).2 = .ok res ∧
      ∀ p ∈ ps, ∀ b, env.loadBqm p = .ok b → ∀ nf ∈ fs,
        (∃ v, odLookup2 res p nf.1 = some v) ∧
        ∀ e, excErr? (tryBody qpu b nf.2) = some e →
          odLookup2 res p nf.1 = some (.failure e.reprStr) := by
  have hok : ∀ p ∈ ps, ∀ b, env.loadBqm p = .ok b →
      ∀ nf ∈ fs, excIsError (runCase env qpu b p nf.1 nf.2).2 = false :=
    fun p hp b hb nf hnf =>
      runCase_ok_of_ordinary env qpu b p nf.1 nf.2 (hord p hp b hb nf hnf)
  refine ⟨expectedResults env qpu ps fs,
    run_clean env qpu ps fs hq hndp hndn hload hok, ?_⟩
  intro p hp b hb nf hnf
  have hpv : problemValue env qpu fs p =
      fs.map (fun x => (x.1, caseValue env qpu b p x)) := by
    simp [problemValue, hb]
  have h1 : odLookup (expectedResults env qpu ps fs) p =
      some (problemValue env qpu fs p) :=
    odLookup_graph (fun q => problemValue env qpu fs q) hp
  have hlook : odLookup2 (expectedResults env qpu ps fs) p nf.1 =
      some (caseValue env qpu b p nf) := by
    unfold odLookup2
    rw [h1]
    show odLookup (problemValue env qpu fs p) nf.1 = _
    rw [hpv]
    exact odLookup_map_of_nodup (caseValue env qpu b p) hndn hnf
  refine ⟨⟨caseValue env qpu b p nf, hlook⟩, ?_⟩
  intro e he
  have ho := hord p hp b hb nf hnf e he
  have hcc := runCase_caught env qpu b p nf.1 nf.2 (excErr_some he) ho
  have hcv : caseValue env qpu b p nf = .failure e.reprStr := by
    simp [caseValue, hcc]
  rw [hlook, hcv]

/-- C1 (witness): the recording theorem applied to a concrete run with two
problems and one succeeding plus one failing pipeline. -/
theorem C1_per_case_failures_recorded_witness :
    ∃ res, (run envW ["p1", "p2"] fsW).2 = .ok res ∧
      ∀ p ∈ ["p1", "p2"], ∀ b, envW.loadBqm p = .ok b → ∀ nf ∈ fsW,
        (∃ v, odLookup2 res p nf.1 = some v) ∧
        ∀ e, excErr? (tryBody ⟨0⟩ b nf.2) = some e →
          odLookup2 res p nf.1 = some (.failure e.reprStr) := by
  apply C1_per_case_failures_recorded_and_run_continues envW ⟨0⟩ ["p1", "p2"] fsW
    rfl (by decide) (by decide)
  · intro p _
    rfl
  · intro p _ b hb nf hnf
    have hb2 : (Except.ok bqmW : Fallible Bqm) = .ok b := hb
    injection hb2 with hbe
    subst hbe
    simp only [fsW, List.mem_cons, List.mem_singleton] at hnf
    rcases hnf with rfl | rfl | h
    · intro e he
      simp [tryBody, okFactory, idSolver, excErr?] at he
    · intro e he
      simp [tryBody, badFactory, excErr?] at he
      rw [← he]
      rfl
    · cases h

/-- C3: in a run whose startup and problem loads succeed and in which no
exception escapes a per-case handler, the run returns a result mapping in
which every problem key occurs exactly once, every problem sub-mapping has
exactly the configured pipeline names as keys (each once), and each of
those entries is either an error string or a success record carrying a
numeric energy and a non-negative wall-clock value. -/
theorem C3_exactly_one_entry_per_case
    (env : Env) (qpu : Qpu) (ps : List String) (fs : List (String × Factory))
    (hq : env.mkQpu = .ok qpu)
    (hndp : ps.Nodup) (hndn : (fs.map Prod.fst).Nodup)
    (hload : ∀ p ∈ ps, excIsError (env.loadBqm p) = false)
    (hok : ∀ p ∈ ps, ∀ b, env.loadBqm p = .ok b →
      ∀ nf ∈ fs, excIsError (runCase env qpu b p nf.1 nf.2).2 = false) :
    ∃ res, (run env ps fs).2 = .ok res ∧
      (odKeys res).Nodup ∧ odKeys res = ps ∧
      ∀ p ∈ ps, ∃ inner, odLookup res p = some inner ∧
        (odKeys inner).Nodup ∧ odKeys inner = fs.map Prod.fst ∧
        ∀ nf ∈ fs, ∃ v, odLookup inner nf.1 = some v ∧
          ((∃ msg, v = CaseResult.failure msg) ∨
            ∃ en wc, v = CaseResult.success en wc ∧ 0 ≤ wc) := by
  refine ⟨expectedResults env qpu ps fs,
    run_clean env qpu ps fs hq hndp hndn hload hok, ?_, ?_, ?_⟩
  · show (odKeys (ps.map (fun p => (p, problemValue env qpu fs p)))).Nodup
    rw [odKeys_graph]
    exact hndp
  · exact odKeys_graph ps _
  · intro p hp
    obtain ⟨b, hb⟩ : ∃ b, env.loadBqm p = .ok b := by
      cases hl : env.loadBqm p with
      | ok b => exact ⟨b, rfl⟩
      | error e =>
        have h0 := hload p hp
        rw [hl] at h0
        simp [excIsError] at h0
    have hpv : problemValue env qpu fs p =
        fs.map (fun x => (x.1, caseValue env qpu b p x)) := by
      simp [problemValue, hb]
    refine ⟨problemValue env qpu fs p,
      odLookup_graph (fun q => problemValue env qpu fs q) hp, ?_, ?_, ?_⟩
    · rw [hpv, odKeys_pairmap]
      exact hndn
    · rw [hpv]
      exact odKeys_pairmap fs _
    · intro nf hnf
      rw [hpv]
      refine ⟨caseValue env qpu b p nf,
        odLookup_map_of_nodup (caseValue env qpu b p) hndn hnf, ?_⟩
      cases hv2 : caseValue env qpu b p nf with
      | failure msg => exact Or.inl ⟨msg, rfl⟩
      | success en wc => exact Or.inr ⟨en, wc, rfl, Nat.zero_le wc⟩

/-- C3 (witness): the entry-shape theorem applied to a concrete run with
two problems, one succeeding and one failing pipeline. -/
theorem C3_exactly_one_entry_per_case_witness :
    ∃ res, (run envW ["p1", "p2"] fsW).2 = .ok res ∧
      (odKeys res).Nodup ∧ odKeys res = ["p1", "p2"] ∧
      ∀ p ∈ ["p1", "p2"], ∃ inner, odLookup res p = some inner ∧
        (odKeys inner).Nodup ∧ odKeys inner = fsW.map Prod.fst ∧
        ∀ nf ∈ fsW, ∃ v, odLookup inner nf.1 = some v ∧
          ((∃ msg, v = CaseResult.failure msg) ∨
            ∃ en wc, v = CaseResult.success en wc ∧ 0 ≤ wc) := by
  apply C3_exactly_one_entry_per_case envW ⟨0⟩ ["p1", "p2"] fsW
    rfl (by decide) (by decide)
  · intro p _
    rfl
  · intro p _ b hb nf hnf
    have hb2 : (Except.ok bqmW : Fallible Bqm) = .ok b := hb
    injection hb2 with hbe
    subst hbe
    simp only [fsW, List.mem_cons, List.mem_singleton] at hnf
    rcases hnf with rfl | rfl | h
    · rfl
    · rfl
    · cases h

/-- C4: in a run whose startup and problem loads succeed and in which no
exception escapes a per-case handler, the iteration order of the keys of
the result mapping equals the order of the input problem-path list, and
within each problem the pipeline-name keys appear in exactly the order of
the configured (name, factory) list. -/
theorem C4_output_order_matches_input_order
    (env : Env) (qpu : Qpu) (ps : List String) (fs : List (String × Factory))
    (hq : env.mkQpu = .ok qpu)
    (hndp : ps.Nodup) (hndn : (fs.map Prod.fst).Nodup)
    (hload : ∀ p ∈ ps, excIsError (env.loadBqm p) = false)
    (hok : ∀ p ∈ ps, ∀ b, env.loadBqm p = .ok b →
      ∀ nf ∈ fs, excIsError (runCase env qpu b p nf.1 nf.2).2 = false) :
    ∃ res, (run env ps fs).2 = .ok res ∧ odKeys res = ps ∧
      ∀ p ∈ ps, ∃ inner, odLookup res p = some inner ∧
        odKeys inner = fs.map Prod.fst := by
  refine ⟨expectedResults env qpu ps fs,
    run_clean env qpu ps fs hq hndp hndn hload hok, odKeys_graph ps _, ?_⟩
  intro p hp
  obtain ⟨b, hb⟩ : ∃ b, env.loadBqm p = .ok b := by
    cases hl : env.loadBqm p with
    | ok b => exact ⟨b, rfl⟩
    | error e =>
      have h0 := hload p hp
      rw [hl] at h0
      simp [excIsError] at h0
  have hpv : problemValue env qpu fs p =
      fs.map (fun x => (x.1, caseValue env qpu b p x)) := by
    simp [problemValue, hb]
  refine ⟨problemValue env qpu fs p,
    odLookup_graph (fun q => problemValue env qpu fs q) hp, ?_⟩
  rw [hpv]
  exact odKeys_pairmap fs _

/-- C4 (witness): the ordering theorem applied to a concrete run. -/
theorem C4_output_order_matches_input_order_witness :
    ∃ res, (run envW ["p1", "p2"] fsW).2 = .ok res ∧
      odKeys res = ["p1", "p2"] ∧
      ∀ p ∈ ["p1", "p2"], ∃ inner, odLookup res p = some inner ∧
        odKeys inner = fsW.map Prod.fst := by
  apply C4_output_order_matches_input_order envW ⟨0⟩ ["p1", "p2"] fsW
    rfl (by decide) (by decide)
  · intro p _
    rfl
  · intro p _ b hb nf hnf
    have hb2 : (Except.ok bqmW : Fallible Bqm) = .ok b := hb
    injection hb2 with hbe
    subst hbe
    simp only [fsW, List.mem_cons, List.mem_singleton] at hnf
    rcases hnf with rfl | rfl | h
    · rfl
    · rfl
    · cases h

/-- C10: when the same problem path occurs more than once in the input
list (startup and loads succeeding, no exception escaping a handler),
every occurrence re-runs all configured pipelines — the trace contains one
file-load event per occurrence of the path — and the final mapping has one
key per distinct path whose value is the sub-mapping produced by running
all pipelines from an empty sub-mapping, i.e. only the (recomputed) results
of the last occurrence, earlier occurrences having been reset. -/
theorem C10_duplicate_problems_rerun_and_reset
    (env : Env) (qpu : Qpu) (ps : List String) (fs : List (String × Factory))
    (hq : env.mkQpu = .ok qpu) (hndn : (fs.map Prod.fst).Nodup)
    (hload : ∀ p ∈ ps, excIsError (env.loadBqm p) = false)
    (hok : ∀ p ∈ ps, ∀ b, env.loadBqm p = .ok b →
      ∀ nf ∈ fs, excIsError (runCase env qpu b p nf.1 nf.2).2 = false) :
    ∃ res, (run env ps fs).2 = .ok res ∧
      (odKeys res).Nodup ∧
      (∀ x, x ∈ odKeys res ↔ x ∈ ps) ∧
      (∀ p ∈ ps, ∀ b, env.loadBqm p = .ok b →
        odLookup res p =
          some (fs.map (fun nf => (nf.1, caseValue env qpu b p nf)))) ∧
      ∀ p, ((run env ps fs).1.count (Event.loadCall p)) = ps.count p := by
  obtain ⟨res, hres, hkeys, hnd, hpres, hval⟩ :=
    runProblems_general env qpu fs hndn ps [] hload hok
  cases hrec : runProblems env qpu fs ps [] with
  | mk t r =>
    rw [hrec] at hres
    have hr : r = .ok res := hres
    subst hr
    have hred : run env ps fs = (Event.mkQpuCall (some qpu) :: t, .ok res) := by
      simp only [run, hq, hrec]
    refine ⟨res, by rw [hred], hnd (by simp [odKeys]), ?_, hval, ?_⟩
    · intro x
      rw [hkeys x]
      simp [odKeys]
    · intro p
      have hcount := runProblems_count_load env qpu fs ps [] p hload hok
      rw [hrec] at hcount
      rw [hred]
      show (Event.mkQpuCall (some qpu) :: t).count (Event.loadCall p) = _
      rw [List.count_cons]
      have hc0 : t.count (Event.loadCall p) = ps.count p := hcount
      simp [hc0]

/-- C10 (witness): the duplicate-handling theorem applied to a concrete
run in which the problem path p1 occurs twice. -/
theorem C10_duplicate_problems_witness :
    ∃ res, (run envW ["p1", "p2", "p1"] fsOk).2 = .ok res ∧
      (odKeys res).Nodup ∧
      (∀ x, x ∈ odKeys res ↔ x ∈ ["p1", "p2", "p1"]) ∧
      (∀ p ∈ ["p1", "p2", "p1"], ∀ b, envW.loadBqm p = .ok b →
        odLookup res p =
          some (fsOk.map (fun nf => (nf.1, caseValue envW ⟨0⟩ b p nf)))) ∧
      ∀ p, ((run envW ["p1", "p2", "p1"] fsOk).1.count (Event.loadCall p)) =
        (["p1", "p2", "p1"] : List String).count p := by
  apply C10_duplicate_problems_rerun_and_reset envW ⟨0⟩ ["p1", "p2", "p1"] fsOk
    rfl (by decide)
  · intro p _
    rfl
  · intro p _ b hb nf hnf
    have hb2 : (Except.ok bqmW : Fallible Bqm) = .ok b := hb
    injection hb2 with hbe
    subst hbe
    simp only [fsOk, List.mem_singleton] at hnf
    subst hnf
    rfl

end Perf
